import Mathlib

/-!
Verification of `rag_processor.py`.

This file is a shallow embedding of the pure core of the program: the
subtitle parsing and rollup deduplication of `clean_srt_content`, the
terminology rule engine `enforce_terminology`, the bounded retry loop of
`process_with_gemini`, the per-file job pipeline `process_file`, and the
discovery filter of `main`.

Modelling conventions:
- Python strings are lists of characters (`Str`).
- The filesystem is an explicit association list from paths to contents.
- External collaborators are oracle parameters: Python's `re.sub` engine
  (whose patterns come from user configuration and whose full semantics are
  outside the program) is a function returning `Option Str` (`none` models a
  raised exception), and the Gemini API client is a function from the attempt
  index to the outcome of that attempt.
- Scanning loops that consume at least one character per step are written
  with an explicit fuel argument initialised to the input length plus one,
  which is always sufficient; this keeps every definition executable.
-/

/-- Python strings, modelled as lists of characters. -/
abbrev Str := List Char

/-- The ASCII characters Python's `str.strip()` removes. -/
def isPySpace (c : Char) : Bool :=
  c == ' ' || c == '\t' || c == '\n' || c == '\r' || c == '\x0b' || c == '\x0c'

/-- Python `s.strip()`. -/
def stripChars (s : Str) : Str :=
  ((s.dropWhile isPySpace).reverse.dropWhile isPySpace).reverse

/-- Python `s.split('\x27\n\x27')`: split at every newline, keeping empty pieces. -/
def splitLines : Str → List Str
  | [] => [[]]
  | '\n' :: t => [] :: splitLines t
  | c :: t =>
    match splitLines t with
    | [] => [[c]]
    | l :: ls => (c :: l) :: ls

/-- The comprehension of rag_processor.py:72-73,
`[l.strip() for l in text.split('\n') if l.strip()]`. -/
def cleanLines (t : Str) : List Str :=
  ((splitLines t).map stripChars).filter (fun l => l ≠ [])

/-- Fragments appended to `cleaned_lines` by one iteration of the
deduplication loop (rag_processor.py:59-83), for block `curr` whose immediate
predecessor is `prev`. -/
def dedupFragments (prev curr : Str) : List Str :=
  if prev.isPrefixOf curr then
    let new_part := stripChars (curr.drop prev.length)
    if new_part = [] then [] else [new_part]
  else
    let prev_lines := cleanLines prev
    let curr_lines := cleanLines curr
    let start_idx :=
      if prev_lines ≠ [] ∧ curr_lines ≠ [] then
        if curr_lines.head? = prev_lines.getLast? then 1
        else if prev_lines.length < curr_lines.length ∧
                curr_lines.take prev_lines.length = prev_lines then prev_lines.length
        else 0
      else 0
    curr_lines.drop start_idx

/-- The deduplication loop over the blocks after the first; `prev` is always
the original previous block, as in the source (`prev_text = blocks[i-1]`). -/
def dedupGo : Str → List Str → List Str
  | _, [] => []
  | prev, curr :: rest => dedupFragments prev curr ++ dedupGo curr rest

/-- `cleaned_lines` as built by rag_processor.py:52-83 from the parsed blocks:
the first block is kept whole, later blocks contribute `dedupFragments`. -/
def dedupBlocks : List Str → List Str
  | [] => []
  | b :: rest => b :: dedupGo b rest

/-- `' '.join(cleaned_lines)` (rag_processor.py:85). -/
def joinSpace (fragments : List Str) : Str := List.intercalate ([' ']) fragments

/-- The start index into the current block's cleaned lines exactly as claim C2
words it, without the nonemptiness guard the code places around the tests. -/
def specStartIdx (prev curr : Str) : Nat :=
  let prev_lines := cleanLines prev
  let curr_lines := cleanLines curr
  if curr_lines.head? = prev_lines.getLast? then 1
  else if prev_lines.length < curr_lines.length ∧
          curr_lines.take prev_lines.length = prev_lines then prev_lines.length
  else 0

lemma getLast?_cons_getLastD (bs : List Str) :
    ∀ b : Str, (b :: bs).getLast? = some (bs.getLastD b) := by
  induction bs with
  | nil => intro b; rfl
  | cons c cs ih =>
      intro b
      rw [List.getLast?_cons_cons, ih c, List.getLastD_cons]

lemma dedupGo_append (curr : Str) (suf : List Str) :
    ∀ (rest : List Str) (prev : Str),
      dedupGo prev (rest ++ curr :: suf) =
        dedupGo prev rest ++ dedupFragments (rest.getLastD prev) curr ++ dedupGo curr suf := by
  intro rest
  induction rest with
  | nil => intro prev; simp [dedupGo]
  | cons c rs ih =>
      intro prev
      show dedupFragments prev c ++ dedupGo c (rs ++ curr :: suf) =
        dedupGo prev (c :: rs) ++ dedupFragments ((c :: rs).getLastD prev) curr ++
          dedupGo curr suf
      rw [ih c, List.getLastD_cons]
      show _ = (dedupFragments prev c ++ dedupGo c rs) ++
        dedupFragments (rs.getLastD c) curr ++ dedupGo curr suf
      simp [List.append_assoc]

lemma dedupBlocks_append (l : List Str) (prev curr : Str) (suf : List Str)
    (h : l.getLast? = some prev) :
    dedupBlocks (l ++ curr :: suf) =
      dedupBlocks l ++ dedupFragments prev curr ++ dedupGo curr suf := by
  cases l with
  | nil => simp at h
  | cons b bs =>
      rw [getLast?_cons_getLastD bs b] at h
      have hp : bs.getLastD b = prev := Option.some.inj h
      simp only [List.cons_append, dedupBlocks]
      rw [dedupGo_append curr suf bs b, hp]

lemma dedupFragments_of_not_startsWith (prev curr : Str)
    (hp : prev.isPrefixOf curr = false) :
    dedupFragments prev curr = (cleanLines curr).drop (specStartIdx prev curr) := by
  simp only [dedupFragments, specStartIdx, hp, Bool.false_eq_true, if_false]
  by_cases hg : cleanLines prev ≠ [] ∧ cleanLines curr ≠ []
  · rw [if_pos hg]
  · rw [if_neg hg]
    rcases not_and_or.mp hg with h | h
    · have hpl : cleanLines prev = [] := not_not.mp h
      by_cases hcl : cleanLines curr = []
      · simp [hpl, hcl]
      · obtain ⟨a, t, hat⟩ := List.exists_cons_of_ne_nil hcl
        rw [hpl, hat]
        simp
    · have hcl : cleanLines curr = [] := not_not.mp h
      simp [hcl]

/-- Claim C1: in the deduplication pass, whenever the current block's text
starts with the predecessor's full text, the fragment retained for the current
block is exactly the remainder of the current text after stripping the
predecessor and trimming whitespace, and no fragment is emitted when
that remainder is empty; moreover for the block sequence
["Hello", "Hello world"] the final joined output is exactly "Hello world". -/
theorem claim_C1 (l : List Str) (prev curr : Str) (suf : List Str)
    (hl : l.getLast? = some prev) (hp : prev.isPrefixOf curr = true) :
    dedupBlocks (l ++ curr :: suf) =
      dedupBlocks l ++
        (if stripChars (curr.drop prev.length) = [] then []
         else [stripChars (curr.drop prev.length)]) ++ dedupGo curr suf
    ∧ joinSpace (dedupBlocks [("Hello".data), ("Hello world".data)]) = "Hello world".data := by
  constructor
  · rw [dedupBlocks_append l prev curr suf hl]
    have hfrag : dedupFragments prev curr =
        (if stripChars (curr.drop prev.length) = [] then []
         else [stripChars (curr.drop prev.length)]) := by
      simp [dedupFragments, hp]
    rw [hfrag]
  · decide

theorem claim_C1_instance :
    joinSpace (dedupBlocks [("Hello".data), ("Hello world".data)]) = "Hello world".data :=
  (claim_C1 [("Hello".data)] ("Hello".data) ("Hello world".data) []
    (by decide) (by decide)).2

/-- Claim C2: in the deduplication pass, when the current block does not start
with the predecessor's text, both are split into non-empty trimmed lines and
the retained fragments are the current block's lines from the start index
onward, where the start index is 1 when the predecessor's last line equals the
current block's first line, the predecessor's line count when the predecessor
has strictly fewer lines and is a line-sequence prefix of the current block,
and 0 otherwise; and for the blocks ["A\n B", "B\n C"] only "C" is newly
emitted for the second block. -/
theorem claim_C2 (l : List Str) (prev curr : Str) (suf : List Str)
    (hl : l.getLast? = some prev) (hp : prev.isPrefixOf curr = false) :
    dedupBlocks (l ++ curr :: suf) =
      dedupBlocks l ++ (cleanLines curr).drop (specStartIdx prev curr) ++ dedupGo curr suf
    ∧ dedupBlocks [("A\nB".data), ("B\nC".data)] = [("A\nB".data), ("C".data)] := by
  constructor
  · rw [dedupBlocks_append l prev curr suf hl,
        dedupFragments_of_not_startsWith prev curr hp]
  · decide

theorem claim_C2_instance :
    dedupBlocks [("A\nB".data), ("B\nC".data)] = [("A\nB".data), ("C".data)] :=
  (claim_C2 [("A\nB".data)] ("A\nB".data) ("B\nC".data) []
    (by decide) (by decide)).2

/-- Python `content.replace('\r\n', '\n')` (rag_processor.py:32): left-to-right
non-overlapping replacement of CRLF pairs. -/
def normalizeNewlines : Str → Str
  | '\r' :: '\n' :: t => '\n' :: normalizeNewlines t
  | c :: t => c :: normalizeNewlines t
  | [] => []

/-- A maximal run of decimal digits and the remaining characters, for the
greedy group one of the cue-block pattern. -/
def spanDigits : Str → Str × Str
  | [] => ([], [])
  | c :: t =>
    if c.isDigit then
      let r := spanDigits t
      (c :: r.1, r.2)
    else ([], c :: t)

/-- Consume one expected character. -/
def expectChar (c : Char) : Str → Option Str
  | [] => none
  | x :: t => if x = c then some t else none

/-- Consume an expected literal character sequence. -/
def expectChars : Str → Str → Option Str
  | [], s => some s
  | c :: cs, s =>
    match expectChar c s with
    | some t => expectChars cs t
    | none => none

/-- Consume one timestamp of the cue-block pattern: two digits, a colon, two
digits, a colon, two digits, a comma, three digits. -/
def matchTimestamp (s : Str) : Option Str :=
  match s with
  | d1 :: d2 :: ':' :: d3 :: d4 :: ':' :: d5 :: d6 :: ',' :: d7 :: d8 :: d9 :: rest =>
    if d1.isDigit && d2.isDigit && d3.isDigit && d4.isDigit && d5.isDigit &&
       d6.isDigit && d7.isDigit && d8.isDigit && d9.isDigit then some rest else none
  | _ => none

/-- Positions where the lazily matched text group of the cue-block pattern
stops: a lookahead for a blank line ("\n\n"), the end of the input, or — for
the dollar anchor without MULTILINE — just before a final newline. -/
def isTerm : Str → Bool
  | [] => true
  | ['\n'] => true
  | '\n' :: '\n' :: _ => true
  | _ => false

/-- The lazily matched text group: the shortest run of characters ending at a
terminator position; the terminator itself is not consumed (a lookahead). -/
def takeGroup4 : Str → Str × Str
  | [] => ([], [])
  | c :: t =>
    if isTerm (c :: t) then ([], c :: t)
    else
      let r := takeGroup4 t
      (c :: r.1, r.2)

/-- One attempted match of the cue-block pattern of rag_processor.py:40 at the
start of `s`; on success, the captured text group and the characters after the
match end. -/
def matchAt (s : Str) : Option (Str × Str) :=
  let d := spanDigits s
  if d.1 = [] then none
  else
    match expectChar '\n' d.2 with
    | none => none
    | some r2 =>
      match matchTimestamp r2 with
      | none => none
      | some r3 =>
        match expectChars (" --> ".data) r3 with
        | none => none
        | some r4 =>
          match matchTimestamp r4 with
          | none => none
          | some r5 =>
            match expectChar '\n' r5 with
            | none => none
            | some r6 => some (takeGroup4 r6)

/-- The `finditer` scan: try a match at each position, left to right; on a
match, resume after its end. Every step consumes at least one character, so
fuel equal to the input length plus one is always sufficient. -/
def findAllAux : Nat → Str → List Str
  | 0, _ => []
  | fuel + 1, s =>
    match matchAt s with
    | some (g, r) => g :: findAllAux fuel r
    | none =>
      match s with
      | [] => []
      | _ :: t => findAllAux fuel t

/-- All text groups captured by scanning `s` with the cue-block pattern. -/
def findAll (s : Str) : List Str := findAllAux (s.length + 1) s

/-- Characters after an opening angle bracket up to and past the first closing
one, when there is one. -/
def dropTag : Str → Option Str
  | [] => none
  | '>' :: t => some t
  | _ :: t => dropTag t

/-- Python `re.sub(r'<[^>]*>', '', text_block)` (rag_processor.py:47): remove
every maximal tag, scanning left to right; an opening bracket with no later
closing bracket is kept. Each fuel step consumes at least one character. -/
def removeTagsAux : Nat → Str → Str
  | 0, s => s
  | _ + 1, [] => []
  | fuel + 1, '<' :: t =>
    match dropTag t with
    | some r => removeTagsAux fuel r
    | none => '<' :: removeTagsAux fuel t
  | fuel + 1, c :: t => c :: removeTagsAux fuel t

/-- HTML-tag removal applied to one text block. -/
def removeTags (s : Str) : Str := removeTagsAux s.length s

/-- The `blocks` list of rag_processor.py:42-50: the text group of each
well-formed cue block, stripped, with markup removed, empty results dropped. -/
def parseBlocks (content : Str) : List Str :=
  ((findAll (normalizeNewlines content)).map (fun g => removeTags (stripChars g))).filter
    (fun b => b ≠ [])

/-- `clean_srt_content` (rag_processor.py:26-85): parse the cue blocks, run
the rollup deduplication, and join the retained fragments with single spaces. -/
def clean_srt_content (content : Str) : Str :=
  joinSpace (dedupBlocks (parseBlocks content))

/-- Claim C3: the deduplicated text is a pure, order-preserving function of
the cue blocks' cleaned text content alone — two subtitle inputs whose
well-formed cue blocks yield the same ordered sequence of cleaned non-empty
text blocks produce identical `clean_srt_content` output, independently of
their timestamps and sequence numbers. -/
theorem claim_C3 (a b : Str) (h : parseBlocks a = parseBlocks b) :
    clean_srt_content a = clean_srt_content b := by
  unfold clean_srt_content
  rw [h]

theorem claim_C3_instance :
    clean_srt_content
        ("1\n00:00:01,000 --> 00:00:02,000\nHello\n\n2\n00:00:02,500 --> 00:00:04,000\nHello world\n".data) =
      clean_srt_content
        ("27\n11:22:33,444 --> 11:22:35,000\nHello\n\n28\n11:22:35,500 --> 11:22:36,000\nHello world".data) :=
  claim_C3 _ _ (by decide)

/-- A terminology rule as loaded by `load_rules` (rag_processor.py:150-154). -/
structure Rule where
  original : Str
  replacement : Str
  is_regex : Bool

/-- The external regular-expression engine behind `re.sub` (rag_processor.py:167).
The patterns come from the user's configuration file and the full engine is a
library collaborator, so it is modelled as an oracle: given pattern,
replacement and text it returns the substituted text, or `none` when the
pattern fails to compile or apply (a raised exception). -/
abbrev RegexOracle := Str → Str → Str → Option Str

/-- Python `s.replace(old, new)` for non-empty `old`: replace every
non-overlapping occurrence, scanning left to right. Each fuel step consumes at
least one character of the text. -/
def pyReplaceAux (old new : Str) : Nat → Str → Str
  | _, [] => []
  | 0, s => s
  | fuel + 1, c :: t =>
    if old.isPrefixOf (c :: t) then new ++ pyReplaceAux old new fuel (t.drop (old.length - 1))
    else c :: pyReplaceAux old new fuel t

/-- Python `s.replace(old, new)` (rag_processor.py:171); an empty `old`
inserts `new` before every character and at the end, as Python does. -/
def pyReplace (s old new : Str) : Str :=
  if old = [] then new ++ (s.map (fun c => c :: new)).flatten
  else pyReplaceAux old new s.length s

/-- One iteration of the rule loop of `enforce_terminology`
(rag_processor.py:162-171): a literal rule is a `str.replace`; a pattern rule
consults the regex oracle, and on failure the text is left unchanged (the
exception is logged and swallowed). -/
def applyRule (reSub : RegexOracle) (text : Str) (rule : Rule) : Str :=
  if rule.is_regex then
    match reSub rule.original rule.replacement text with
    | some t => t
    | none => text
  else pyReplace text rule.original rule.replacement

/-- `enforce_terminology` (rag_processor.py:160-173): fold the ordered rules
over the text, each rule seeing the previous rule's result. -/
def enforce_terminology (reSub : RegexOracle) (text : Str) (rules : List Rule) : Str :=
  rules.foldl (applyRule reSub) text

/-- Claim C4: terminology rules compose sequentially — each rule is applied to
the result of the previous rule's application, not to the original string; and
the literal rules foo→bar, bar→baz applied to "foo" yield "baz", not "bar". -/
theorem claim_C4 (reSub : RegexOracle) (t : Str) (r : Rule) (rs : List Rule) :
    enforce_terminology reSub t (r :: rs) =
      enforce_terminology reSub (applyRule reSub t r) rs
    ∧ enforce_terminology reSub ("foo".data)
        [⟨"foo".data, "bar".data, false⟩, ⟨"bar".data, "baz".data, false⟩] = "baz".data
    ∧ enforce_terminology reSub ("foo".data)
        [⟨"foo".data, "bar".data, false⟩, ⟨"bar".data, "baz".data, false⟩] ≠ "bar".data := by
  refine ⟨rfl, rfl, ?_⟩
  intro hcontra
  have hbaz : ("baz".data : Str) = "bar".data := hcontra
  simp at hbaz

/-- Claim C5: if applying one regex rule raises (the oracle fails on the text
as it stands when that rule is reached), `enforce_terminology` does not fail:
that rule leaves the text unchanged and every remaining rule is applied to the
text as it stood before the failing rule. (The Lean embedding is total, so no
exception can escape by construction.) -/
theorem claim_C5 (reSub : RegexOracle) (t : Str) (pre post : List Rule) (r : Rule)
    (hr : r.is_regex = true)
    (hfail : reSub r.original r.replacement (enforce_terminology reSub t pre) = none) :
    enforce_terminology reSub t (pre ++ r :: post) =
      enforce_terminology reSub (enforce_terminology reSub t pre) post := by
  unfold enforce_terminology at *
  rw [List.foldl_append]
  show List.foldl (applyRule reSub) (applyRule reSub (List.foldl (applyRule reSub) t pre) r) post = _
  rw [show applyRule reSub (List.foldl (applyRule reSub) t pre) r =
        List.foldl (applyRule reSub) t pre by simp [applyRule, hr, hfail]]

/-- A regex oracle that always fails, for the witness. -/
def failSub : RegexOracle := fun _ _ _ => none

theorem claim_C5_instance :
    enforce_terminology failSub ("abc".data)
        ([] ++ (⟨"(".data, "x".data, true⟩ : Rule) :: [⟨"a".data, "b".data, false⟩]) =
      enforce_terminology failSub (enforce_terminology failSub ("abc".data) [])
        [⟨"a".data, "b".data, false⟩] :=
  claim_C5 failSub ("abc".data) [] [⟨"a".data, "b".data, false⟩]
    ⟨"(".data, "x".data, true⟩ rfl rfl

/-- The filesystem, as an association list from paths to file contents; the
most recent write for a path is found first. -/
abbrev FS := List (Str × Str)

/-- Reading a file; `none` models the OSError a missing path raises. -/
def fsRead (fs : FS) (p : Str) : Option Str :=
  (fs.find? (fun kv => kv.1 == p)).map (fun kv => kv.2)

/-- Writing a file. -/
def fsWrite (fs : FS) (p v : Str) : FS := (p, v) :: fs

/-- `os.path.exists`. -/
def fsExists (fs : FS) (p : Str) : Bool := (fsRead fs p).isSome

/-- `os.path.basename`: the part of a path after its last slash. -/
def basename (p : Str) : Str := (p.reverse.takeWhile (fun c => c != '/')).reverse

/-- `os.path.splitext` on a basename: split at the last dot, unless every
character before that dot is itself a dot (leading-dot files keep their name). -/
def splitext (f : Str) : Str × Str :=
  let revTail := f.reverse.takeWhile (fun c => c != '.')
  if revTail.length = f.length then (f, [])
  else
    let stem := f.take (f.length - revTail.length - 1)
    let ext := f.drop (f.length - revTail.length - 1)
    if stem.any (fun c => c != '.') then (stem, ext) else (f, [])

/-- `os.path.join` for a directory and a relative filename. -/
def joinPath (d f : Str) : Str := d ++ '/' :: f

/-- Python `s.lower()` (ASCII case folding, which covers the extensions the
program compares against). -/
def toLowerStr (s : Str) : Str := s.map Char.toLower

/-- The output path `process_file` derives for an input path
(rag_processor.py:267-272): the basename with its extension removed plus
"_rag.txt", joined to the output directory. -/
def output_path_of (file_path output_dir : Str) : Str :=
  joinPath output_dir ((splitext (basename file_path)).1 ++ ("_rag.txt".data))

/-- The outcome of one Gemini API attempt, as classified by
rag_processor.py:253-262: success with the response text, a rate-limit or
quota error ("429"/"quota" in the message), or any other exception. -/
inductive ApiOutcome where
  | ok (text : Str)
  | rateLimited
  | otherError
deriving DecidableEq

/-- The retry loop of `process_with_gemini` (rag_processor.py:247-263):
`attempt` is the index of the next attempt and the second argument the number
of loop iterations left; the result carries the returned text (empty on
failure) and the total number of attempts made. A rate-limited attempt sleeps
and retries; another error returns "" on the last attempt and otherwise sleeps
and retries; an exhausted loop returns "". -/
def geminiAux (call : Nat → ApiOutcome) (attempt : Nat) : Nat → Str × Nat
  | 0 => ([], attempt)
  | remaining + 1 =>
    match call attempt with
    | ApiOutcome.ok t => (t, attempt + 1)
    | ApiOutcome.rateLimited => geminiAux call (attempt + 1) remaining
    | ApiOutcome.otherError =>
      if remaining = 0 then ([], attempt + 1)
      else geminiAux call (attempt + 1) remaining

/-- `process_with_gemini` (rag_processor.py:243-263), with the external client
modelled by `call` (the outcome of each attempt for this job's prompt): the
text returned and the number of attempts made. -/
def process_with_gemini (call : Nat → ApiOutcome) (max_retries : Nat) : Str × Nat :=
  geminiAux call 0 max_retries

/-- The terminal state a `process_file` job reaches, one per exit path of
rag_processor.py:265-326. -/
inductive JobOutcome where
  | skipped
  | readError
  | emptyContent
  | geminiFailed
  | succeeded
deriving DecidableEq

/-- The audit delimiter written between the enriched text and the original
cleaned input (rag_processor.py:320). -/
def auditHeader : Str := "\n\n---\n\n## Transcrição Completa Original\n\n".data

/-- The body of a job once its content is in hand (rag_processor.py:288-321):
stop on empty content; call Gemini with three retries; stop on an empty
response; apply the terminology rules and write the output followed by the
audit copy of the cleaned input. -/
def job_pipeline (call : Nat → ApiOutcome) (reSub : RegexOracle) (fs : FS)
    (output_path content : Str) (rules : List Rule) : FS × JobOutcome :=
  if stripChars content = [] then (fs, JobOutcome.emptyContent)
  else
    let optimized := (process_with_gemini call 3).1
    if optimized = [] then (fs, JobOutcome.geminiFailed)
    else
      let final := enforce_terminology reSub optimized rules
      (fsWrite fs output_path (final ++ auditHeader ++ content), JobOutcome.succeeded)

/-- `process_file` (rag_processor.py:265-326), entry: the idempotency check,
the read, and the `.srt` cleaning that feed `job_pipeline`. -/
def process_file (call : Nat → ApiOutcome) (reSub : RegexOracle) (fs : FS)
    (file_path output_dir : Str) (rules : List Rule) : FS × JobOutcome :=
  let output_path := output_path_of file_path output_dir
  if fsExists fs output_path then (fs, JobOutcome.skipped)
  else
    match fsRead fs file_path with
    | none => (fs, JobOutcome.readError)
    | some raw =>
      job_pipeline call reSub fs output_path
        (if (".srt".data).isSuffixOf (toLowerStr (basename file_path)) then
          clean_srt_content raw
        else raw) rules

/-- The batch over the discovered files, sequentialised (jobs share no state
except the filesystem, so the bounded thread pool's interleavings all produce
the filesystem this fold produces). -/
def run_jobs (call : Nat → ApiOutcome) (reSub : RegexOracle) (output_dir : Str)
    (rules : List Rule) : FS → List Str → FS
  | fs, [] => fs
  | fs, p :: ps =>
    run_jobs call reSub output_dir rules
      ((process_file call reSub fs p output_dir rules).1) ps

lemma job_pipeline_empty (call : Nat → ApiOutcome) (reSub : RegexOracle) (fs : FS)
    (output_path content : Str) (rules : List Rule) (h : stripChars content = []) :
    job_pipeline call reSub fs output_path content rules = (fs, JobOutcome.emptyContent) := by
  simp [job_pipeline, h]

lemma job_pipeline_fst_of_gemini_empty (call : Nat → ApiOutcome) (reSub : RegexOracle)
    (fs : FS) (output_path content : Str) (rules : List Rule)
    (hg : (process_with_gemini call 3).1 = []) :
    (job_pipeline call reSub fs output_path content rules).1 = fs := by
  by_cases h2 : stripChars content = []
  · simp [job_pipeline, h2]
  · simp [job_pipeline, h2, hg]

lemma process_file_skip (call : Nat → ApiOutcome) (reSub : RegexOracle) (fs : FS)
    (file_path output_dir : Str) (rules : List Rule)
    (h : fsExists fs (output_path_of file_path output_dir) = true) :
    process_file call reSub fs file_path output_dir rules = (fs, JobOutcome.skipped) := by
  simp [process_file, h]

lemma run_jobs_all_skip (call : Nat → ApiOutcome) (reSub : RegexOracle)
    (output_dir : Str) (rules : List Rule) (fs : FS) :
    ∀ paths : List Str,
      (∀ p ∈ paths, fsExists fs (output_path_of p output_dir) = true) →
      run_jobs call reSub output_dir rules fs paths = fs := by
  intro paths
  induction paths with
  | nil => intro _; rfl
  | cons p ps ih =>
      intro h
      show run_jobs call reSub output_dir rules
        ((process_file call reSub fs p output_dir rules).1) ps = fs
      rw [process_file_skip call reSub fs p output_dir rules (h p (by simp))]
      exact ih (fun q hq => h q (by simp [hq]))

/-- Claim C6: when the derived output path already exists, the job does no
other work — the result is Skipped with the filesystem unchanged, for every
Processor oracle and whatever the input file holds — and re-running the batch
over a directory already containing every expected output writes nothing. -/
theorem claim_C6 (call : Nat → ApiOutcome) (reSub : RegexOracle) (fs : FS)
    (file_path output_dir : Str) (rules : List Rule) (paths : List Str)
    (h1 : fsExists fs (output_path_of file_path output_dir) = true)
    (h2 : ∀ p ∈ paths, fsExists fs (output_path_of p output_dir) = true) :
    process_file call reSub fs file_path output_dir rules = (fs, JobOutcome.skipped)
    ∧ run_jobs call reSub output_dir rules fs paths = fs :=
  ⟨process_file_skip call reSub fs file_path output_dir rules h1,
   run_jobs_all_skip call reSub output_dir rules fs paths h2⟩

/-- A processor oracle that always hits the rate limit. -/
def rlCall : Nat → ApiOutcome := fun _ => ApiOutcome.rateLimited

/-- A regex oracle that substitutes nothing. -/
def idSub : RegexOracle := fun _ _ t => some t

theorem claim_C6_instance :
    process_file rlCall idSub
        [(("o/A_rag.txt".data), ("done".data)), (("o/B_rag.txt".data), ("done".data))]
        ("d/A.txt".data) ("o".data) [] =
      ([(("o/A_rag.txt".data), ("done".data)), (("o/B_rag.txt".data), ("done".data))],
        JobOutcome.skipped)
    ∧ run_jobs rlCall idSub ("o".data) []
        [(("o/A_rag.txt".data), ("done".data)), (("o/B_rag.txt".data), ("done".data))]
        [("d/A.txt".data), ("d/B.srt".data)] =
      [(("o/A_rag.txt".data), ("done".data)), (("o/B_rag.txt".data), ("done".data))] :=
  claim_C6 rlCall idSub
    [(("o/A_rag.txt".data), ("done".data)), (("o/B_rag.txt".data), ("done".data))]
    ("d/A.txt".data) ("o".data) [] [("d/A.txt".data), ("d/B.srt".data)]
    (by decide) (by decide)

lemma geminiAux_rateLimited (call : Nat → ApiOutcome)
    (h : ∀ n, call n = ApiOutcome.rateLimited) :
    ∀ (remaining attempt : Nat), geminiAux call attempt remaining = ([], attempt + remaining) := by
  intro remaining
  induction remaining with
  | zero => intro attempt; simp [geminiAux]
  | succ r ih =>
      intro attempt
      show (match call attempt with
        | ApiOutcome.ok t => (t, attempt + 1)
        | ApiOutcome.rateLimited => geminiAux call (attempt + 1) r
        | ApiOutcome.otherError =>
          if r = 0 then ([], attempt + 1)
          else geminiAux call (attempt + 1) r) = ([], attempt + (r + 1))
      rw [h attempt]
      show geminiAux call (attempt + 1) r = ([], attempt + (r + 1))
      rw [ih (attempt + 1)]
      have : attempt + 1 + r = attempt + (r + 1) := by omega
      rw [this]

lemma process_with_gemini_rateLimited (call : Nat → ApiOutcome) (max_retries : Nat)
    (h : ∀ n, call n = ApiOutcome.rateLimited) :
    process_with_gemini call max_retries = ([], max_retries) := by
  show geminiAux call 0 max_retries = ([], max_retries)
  rw [geminiAux_rateLimited call h max_retries 0]
  simp

/-- Claim C7: against a Processor that fails with a rate-limited error on
every invocation, `process_with_gemini` makes exactly `max_retries` attempts
and returns the empty-text failure result (its Lean embedding is total, so
nothing propagates past the job boundary), and `process_file` then leaves the
filesystem unchanged — no output file is written for the job. -/
theorem claim_C7 (call : Nat → ApiOutcome) (max_retries : Nat) (reSub : RegexOracle)
    (fs : FS) (file_path output_dir : Str) (rules : List Rule)
    (h : ∀ n, call n = ApiOutcome.rateLimited) :
    process_with_gemini call max_retries = ([], max_retries)
    ∧ (process_file call reSub fs file_path output_dir rules).1 = fs := by
  refine ⟨process_with_gemini_rateLimited call max_retries h, ?_⟩
  have hg : (process_with_gemini call 3).1 = [] := by
    rw [process_with_gemini_rateLimited call 3 h]
  by_cases h1 : fsExists fs (output_path_of file_path output_dir) = true
  · simp [process_file, h1]
  · rw [Bool.not_eq_true] at h1
    rcases hr : fsRead fs file_path with _ | raw
    · simp [process_file, h1, hr]
    · simp only [process_file, h1, Bool.false_eq_true, if_false, hr]
      exact job_pipeline_fst_of_gemini_empty call reSub fs _ _ rules hg

theorem claim_C7_instance :
    process_with_gemini rlCall 3 = ([], 3)
    ∧ (process_file rlCall idSub [(("p".data), ("body".data))]
        ("p".data) ("o".data) []).1 = [(("p".data), ("body".data))] :=
  claim_C7 rlCall 3 idSub [(("p".data), ("body".data))] ("p".data) ("o".data) []
    (fun _ => rfl)

/-- Claim C8: for an input file whose content — after subtitle cleaning when
the name ends in .srt — is empty or whitespace-only, `process_file` stops with
the empty-content failure, for every Processor oracle (so the Processor is
never consulted), and writes nothing. -/
theorem claim_C8 (call : Nat → ApiOutcome) (reSub : RegexOracle) (fs : FS)
    (file_path output_dir : Str) (rules : List Rule) (raw : Str)
    (h1 : fsExists fs (output_path_of file_path output_dir) = false)
    (h2 : fsRead fs file_path = some raw)
    (h3 : stripChars
        (if (".srt".data).isSuffixOf (toLowerStr (basename file_path)) then
          clean_srt_content raw
        else raw) = []) :
    process_file call reSub fs file_path output_dir rules = (fs, JobOutcome.emptyContent) := by
  simp only [process_file, h1, Bool.false_eq_true, if_false, h2]
  exact job_pipeline_empty call reSub fs _ _ rules h3

theorem claim_C8_instance :
    process_file rlCall idSub [(("d/a.srt".data), ("junk".data))]
        ("d/a.srt".data) ("d".data) [] =
      ([(("d/a.srt".data), ("junk".data))], JobOutcome.emptyContent) :=
  claim_C8 rlCall idSub [(("d/a.srt".data), ("junk".data))]
    ("d/a.srt".data) ("d".data) [] ("junk".data)
    (by decide) (by decide) (by decide)

lemma takeWhile_append_all (p : Char → Bool) :
    ∀ (l1 : List Char) (x : Char) (l2 : List Char),
      (∀ c ∈ l1, p c = true) → p x = false →
      (l1 ++ x :: l2).takeWhile p = l1 := by
  intro l1
  induction l1 with
  | nil =>
      intro x l2 _ hx
      simp [List.takeWhile_cons, hx]
  | cons a t ih =>
      intro x l2 h hx
      have ha : p a = true := h a (by simp)
      simp only [List.cons_append, List.takeWhile_cons, ha, if_true]
      rw [ih x l2 (fun c hc => h c (by simp [hc])) hx]

lemma basename_join (d f : Str) (h : ∀ c ∈ f, c ≠ '/') :
    basename (joinPath d f) = f := by
  unfold basename joinPath
  have hrev : (d ++ '/' :: f).reverse = f.reverse ++ '/' :: d.reverse := by
    simp
  rw [hrev, takeWhile_append_all _ f.reverse '/' d.reverse
      (fun c hc => by
        have : c ≠ '/' := h c (List.mem_reverse.mp hc)
        simp [this])
      (by simp)]
  exact List.reverse_reverse f

lemma splitext_stem (stem e : Str) (h1 : ∀ c ∈ stem, c ≠ '.') (h2 : stem ≠ [])
    (h3 : ∀ c ∈ e, c ≠ '.') :
    splitext (stem ++ '.' :: e) = (stem, '.' :: e) := by
  unfold splitext
  have hrev : (stem ++ '.' :: e).reverse = e.reverse ++ '.' :: stem.reverse := by
    simp
  have htw : ((stem ++ '.' :: e).reverse.takeWhile (fun c => c != '.')) = e.reverse := by
    rw [hrev, takeWhile_append_all _ e.reverse '.' stem.reverse
        (fun c hc => by
          have : c ≠ '.' := h3 c (List.mem_reverse.mp hc)
          simp [this])
        (by simp)]
  rw [htw]
  have hlen : (stem ++ '.' :: e).length = stem.length + (e.length + 1) := by
    simp [List.length_append]
  have hne : e.reverse.length ≠ (stem ++ '.' :: e).length := by
    rw [hlen, List.length_reverse]
    have : 0 < stem.length := List.length_pos.mpr h2
    omega
  rw [if_neg hne]
  have hidx : (stem ++ '.' :: e).length - e.reverse.length - 1 = stem.length := by
    rw [hlen, List.length_reverse]
    omega
  rw [hidx]
  have htake : (stem ++ '.' :: e).take stem.length = stem := List.take_left stem ('.' :: e)
  have hdrop : (stem ++ '.' :: e).drop stem.length = '.' :: e := List.drop_left stem ('.' :: e)
  rw [htake, hdrop]
  obtain ⟨a, t, hat⟩ := List.exists_cons_of_ne_nil h2
  have hany : stem.any (fun c => c != '.') = true := by
    rw [hat]
    have : a ≠ '.' := h1 a (by rw [hat]; simp)
    simp [this]
  rw [if_pos hany]

lemma output_path_of_join (dir outdir stem e : Str)
    (h1 : ∀ c ∈ stem, c ≠ '.') (h2 : stem ≠ []) (h3 : ∀ c ∈ stem, c ≠ '/')
    (h4 : ∀ c ∈ e, c ≠ '.') (h5 : ∀ c ∈ e, c ≠ '/') :
    output_path_of (joinPath dir (stem ++ '.' :: e)) outdir =
      joinPath outdir (stem ++ ("_rag.txt".data)) := by
  unfold output_path_of
  rw [basename_join dir (stem ++ '.' :: e) (by
    intro c hc
    rcases List.mem_append.mp hc with h | h
    · exact h3 c h
    · rcases List.mem_cons.mp h with h | h
      · rw [h]; decide
      · exact h5 c h)]
  rw [splitext_stem stem e h1 h2 h4]

lemma job_pipeline_succeeded_written (call : Nat → ApiOutcome) (reSub : RegexOracle)
    (fs : FS) (output_path content : Str) (rules : List Rule)
    (h : (job_pipeline call reSub fs output_path content rules).2 = JobOutcome.succeeded) :
    fsExists (job_pipeline call reSub fs output_path content rules).1 output_path = true := by
  by_cases h2 : stripChars content = []
  · simp [job_pipeline, h2] at h
  · by_cases h3 : (process_with_gemini call 3).1 = []
    · simp [job_pipeline, h2, h3] at h
    · simp [job_pipeline, h2, h3, fsExists, fsRead, fsWrite]

lemma process_file_succeeded_written (call : Nat → ApiOutcome) (reSub : RegexOracle)
    (fs : FS) (file_path output_dir : Str) (rules : List Rule)
    (h : (process_file call reSub fs file_path output_dir rules).2 = JobOutcome.succeeded) :
    fsExists (process_file call reSub fs file_path output_dir rules).1
      (output_path_of file_path output_dir) = true := by
  by_cases h1 : fsExists fs (output_path_of file_path output_dir) = true
  · simp [process_file, h1] at h
  · rw [Bool.not_eq_true] at h1
    rcases hr : fsRead fs file_path with _ | raw
    · simp [process_file, h1, hr] at h
    · simp only [process_file, h1, Bool.false_eq_true, if_false, hr] at h ⊢
      exact job_pipeline_succeeded_written call reSub fs _ _ rules h

/-- Claim C10: the output filename is derived solely from the input's base
name with the extension removed plus "_rag.txt", so two inputs in the same
directory whose names differ only in extension (stem + ".txt" and
stem + ".srt") target the same output path, and once the ".txt" job has
succeeded, the ".srt" job finds its output path present and is skipped with
the filesystem unchanged. -/
theorem claim_C10 (call call2 : Nat → ApiOutcome) (reSub reSub2 : RegexOracle)
    (fs : FS) (dir outdir : Str) (rules : List Rule) (stem : Str)
    (h1 : ∀ c ∈ stem, c ≠ '.') (h2 : ∀ c ∈ stem, c ≠ '/') (h3 : stem ≠ []) :
    output_path_of (joinPath dir (stem ++ (".txt".data))) outdir =
      output_path_of (joinPath dir (stem ++ (".srt".data))) outdir
    ∧ ((process_file call reSub fs (joinPath dir (stem ++ (".txt".data))) outdir rules).2 =
          JobOutcome.succeeded →
        process_file call2 reSub2
            (process_file call reSub fs (joinPath dir (stem ++ (".txt".data))) outdir rules).1
            (joinPath dir (stem ++ (".srt".data))) outdir rules =
          ((process_file call reSub fs (joinPath dir (stem ++ (".txt".data))) outdir rules).1,
            JobOutcome.skipped)) := by
  have htxt : (".txt".data : Str) = '.' :: ("txt".data) := rfl
  have hsrt : (".srt".data : Str) = '.' :: ("srt".data) := rfl
  have hpaths : output_path_of (joinPath dir (stem ++ (".txt".data))) outdir =
      output_path_of (joinPath dir (stem ++ (".srt".data))) outdir := by
    rw [htxt, hsrt,
      output_path_of_join dir outdir stem ("txt".data) h1 h3 h2
        (by decide) (by decide),
      output_path_of_join dir outdir stem ("srt".data) h1 h3 h2
        (by decide) (by decide)]
  refine ⟨hpaths, fun hsucc => ?_⟩
  have hex := process_file_succeeded_written call reSub fs
    (joinPath dir (stem ++ (".txt".data))) outdir rules hsucc
  rw [hpaths] at hex
  exact process_file_skip call2 reSub2 _ _ outdir rules hex

/-- A processor oracle that succeeds immediately. -/
def okCall : Nat → ApiOutcome := fun _ => ApiOutcome.ok ("RAG".data)

theorem claim_C10_instance :
    process_file okCall idSub
        (process_file okCall idSub [((("in/X.txt".data)), ("hello".data))]
          (joinPath ("in".data) (("X".data) ++ (".txt".data))) ("out".data) []).1
        (joinPath ("in".data) (("X".data) ++ (".srt".data))) ("out".data) [] =
      ((process_file okCall idSub [((("in/X.txt".data)), ("hello".data))]
          (joinPath ("in".data) (("X".data) ++ (".txt".data))) ("out".data) []).1,
        JobOutcome.skipped) :=
  (claim_C10 okCall okCall idSub idSub [((("in/X.txt".data)), ("hello".data))]
    ("in".data) ("out".data) [] ("X".data)
    (by decide) (by decide) (by decide)).2 (by decide)

/-- The fixed denylist of known non-transcript filenames
(rag_processor.py:348). -/
def excluded_files : List Str :=
  [("historico.txt".data), ("cookies.txt".data), ("requirements.txt".data),
   ("rules.txt".data), ("LICENSE".data), ("README.md".data)]

/-- Python substring membership, `sub in f`. -/
def hasSub (sub : Str) : Str → Bool
  | [] => sub.isEmpty
  | c :: t => sub.isPrefixOf (c :: t) || hasSub sub t

/-- Python `f.startswith('.')`. -/
def startsDot : Str → Bool
  | '.' :: _ => true
  | _ => false

/-- The discovery predicate of rag_processor.py:349-355: recognized extension,
no "_rag" substring anywhere in the name, not in the denylist, not hidden. -/
def eligibleFile (f : Str) : Bool :=
  ((".txt".data).isSuffixOf f || (".srt".data).isSuffixOf f)
  && !(hasSub ("_rag".data) f)
  && !(excluded_files.contains f)
  && !(startsDot f)

/-- The discovery comprehension of `main`: the files of the listing that pass
the predicate. -/
def discoverFiles (listing : List Str) : List Str := listing.filter eligibleFile

/-- The discovery predicate exactly as claim C9 words it: recognized
extension, not already bearing the output suffix "_rag.txt", not in the
denylist, not hidden. -/
def claimNineEligible (f : Str) : Bool :=
  ((".txt".data).isSuffixOf f || (".srt".data).isSuffixOf f)
  && !(("_rag.txt".data).isSuffixOf f)
  && !(excluded_files.contains f)
  && !(startsDot f)

/-- Counterexample to claim C9 as stated: "a_ragb.txt" satisfies every
condition of the claim — it ends in ".txt", does not bear the output suffix
"_rag.txt", is not denylisted and is not hidden — yet the code rejects it,
because the code excludes any name containing the substring "_rag". -/
theorem claim_C9_counterexample :
    claimNineEligible ("a_ragb.txt".data) = true
    ∧ eligibleFile ("a_ragb.txt".data) = false := by decide

/-- Claim C9 (amended): a filename listed in the input directory is selected
iff it has a recognized extension (.txt or .srt), does not contain the
substring "_rag" anywhere in its name, is not in the fixed denylist of known
non-transcript filenames, and is not hidden. -/
theorem claim_C9 (listing : List Str) (f : Str) :
    f ∈ discoverFiles listing ↔
      f ∈ listing ∧
        (((".txt".data).isSuffixOf f = true ∨ (".srt".data).isSuffixOf f = true)
         ∧ hasSub ("_rag".data) f = false
         ∧ f ∉ excluded_files
         ∧ startsDot f = false) := by
  unfold discoverFiles eligibleFile
  rw [List.mem_filter]
  simp only [Bool.and_eq_true, Bool.or_eq_true, Bool.not_eq_true', and_assoc]
  constructor
  · rintro ⟨hmem, hext, hrag, hden, hdot⟩
    refine ⟨hmem, hext, hrag, ?_, hdot⟩
    intro hin
    have hc : excluded_files.contains f = true := List.elem_iff.mpr hin
    rw [hc] at hden
    simp at hden
  · rintro ⟨hmem, hext, hrag, hden, hdot⟩
    refine ⟨hmem, hext, hrag, ?_, hdot⟩
    cases hc : excluded_files.contains f
    · rfl
    · exact absurd (List.elem_iff.mp hc) hden
